import Mathlib

set_option linter.unusedVariables false

/-
Verification of the amnesia repository core: SISA sharding (shard_manager.py),
prediction aggregation (aggregator.py), Fisher importance estimation (fisher.py),
constrained gradient-ascent unlearning (gradient_ascent.py) and membership-style
verification (membership_inference.py).

Machine floats are embedded as rationals, torch tensors as lists of rationals,
and Python dicts as association lists with distinct keys (insertion order kept,
matching dict semantics).  Python exceptions are an explicit error channel.

The file is organized as definitions first, then the theorems about them.
-/

namespace Amnesia

/-- Errors raised by the embedded Python code paths.  `valueError` and
`stopIteration` correspond to the builtin Python exceptions actually reachable
in the source.  `emptyAggregatorError` is modelled from the spec: the spec
names a dedicated `EmptyAggregatorError`, but no such class exists anywhere in
the source; the constructor exists only so that the claim about it can be
stated and compared with what the code really raises. -/
inductive PyErr where
  | valueError
  | stopIteration
  | emptyAggregatorError
  deriving DecidableEq, Repr

/-- Association-list lookup, first match wins: embeds Python `d.get(k)` /
`d[k]` on a dict represented with its insertion order. -/
def alookup {α β : Type} [DecidableEq α] : List (α × β) → α → Option β
  | [], _ => none
  | (k, v) :: rest, key => if k = key then some v else alookup rest key

/-- Association-list delete of the first matching key: embeds Python
`del d[k]` (dicts never hold a key twice, so first-match delete is exact). -/
def aerase {α β : Type} [DecidableEq α] : List (α × β) → α → List (α × β)
  | [], _ => []
  | (k, v) :: rest, key => if k = key then rest else (k, v) :: aerase rest key

/-- Association-list insert-or-replace: embeds Python `d[k] = v`, which keeps
the position of an existing key and appends a fresh key at the end. -/
def aset {α β : Type} [DecidableEq α] : List (α × β) → α → β → List (α × β)
  | [], key, v => [(key, v)]
  | (k, w) :: rest, key, v =>
    if k = key then (key, v) :: rest else (k, w) :: aset rest key v

/-!  Embedding of src/core/sisa/aggregator.py (ShardAggregator).

A shard model is embedded as a function from one input to its per-class score
vector; a batch is a list of inputs, so a model applied to a batch yields the
[batch, classes] matrix that torch returns.  -/

/-- The three aggregation strategies of ShardAggregator (a `Literal` type in
the source, so the unknown-method ValueError branch is unreachable). -/
inductive AggMethod where
  | mean
  | vote
  | weighted
  deriving DecidableEq, Repr

/-- State of a ShardAggregator: `models` and `weights` embed the two Python
dicts keyed by shard index. -/
structure ShardAggregator (I : Type) where
  models : List (Nat × (I → List ℚ))
  method : AggMethod
  weights : List (Nat × ℚ)

/-- Equal weights `1.0 / len(models)` assigned by `__init__` when no explicit
weight dict is given. -/
def defaultWeights {M : Type} (models : List (Nat × M)) : List (Nat × ℚ) :=
  models.map (fun p => (p.1, 1 / (models.length : ℚ)))

/-- Embeds `ShardAggregator.remove_shard` (aggregator.py lines 128-140): if the
shard is present, delete its model, delete its weight if present, and when the
remaining weights have positive total divide every remaining weight by that
total. -/
def remove_shard {I : Type} (a : ShardAggregator I) (shard_idx : Nat) :
    ShardAggregator I :=
  if (alookup a.models shard_idx).isSome then
    let models1 := aerase a.models shard_idx
    let weights1 :=
      if (alookup a.weights shard_idx).isSome then aerase a.weights shard_idx
      else a.weights
    let total := (weights1.map (fun p => p.2)).sum
    if 0 < total then
      { models := models1, method := a.method,
        weights := weights1.map (fun p => (p.1, p.2 / total)) }
    else
      { models := models1, method := a.method, weights := weights1 }
  else a

/-- Index of the first maximal entry of a score row, accumulator form.
`best` is the best index so far, `bv` its score, `i` the index of the next
entry. -/
def argmaxAux : List ℚ → Nat → Nat → ℚ → Nat
  | [], _, best, _ => best
  | v :: rest, i, best, bv =>
    if bv < v then argmaxAux rest (i + 1) i v
    else argmaxAux rest (i + 1) best bv

/-- Embeds `tensor.argmax(dim=1)` applied to one row: the index of the first
maximal entry (torch returns the first occurrence on ties). -/
def argmaxIdx : List ℚ → Nat
  | [] => 0
  | v :: rest => argmaxAux rest 1 0 v

/-- Adds `1` to position `j` of a row: one `scatter_add_` contribution of a
single vote (aggregator.py lines 106-109). -/
def bumpAt : List ℚ → Nat → List ℚ
  | [], _ => []
  | x :: xs, 0 => (x + 1) :: xs
  | x :: xs, n + 1 => x :: bumpAt xs n

/-- Embeds `ShardAggregator._aggregate_vote` (aggregator.py lines 91-111):
each shard casts one vote per sample for its argmax class; votes are
accumulated by `scatter_add_` into a zero matrix of shape
[batch_size, num_classes], with both dimensions read off the stacked
predictions exactly as in the source. -/
def aggregateVote (ps : List (List (List ℚ))) : List (List ℚ) :=
  let votes := ps.map (fun p => p.map argmaxIdx)
  let batch_size := (votes.headD []).length
  let num_classes := ((ps.headD []).headD []).length
  votes.foldl (fun acc vrow => acc.zipWith bumpAt vrow)
    (List.replicate batch_size (List.replicate num_classes (0 : ℚ)))

/-- Pointwise sum of two prediction matrices (same-shape torch addition). -/
def matAdd (A B : List (List ℚ)) : List (List ℚ) :=
  A.zipWith (fun r s => r.zipWith (fun x y => x + y) s) B

/-- Embeds `ShardAggregator._aggregate_mean`: `torch.stack(...).mean(dim=0)`,
the pointwise mean of the per-shard prediction matrices. -/
def aggregateMean (ps : List (List (List ℚ))) : List (List ℚ) :=
  match ps with
  | [] => []
  | p0 :: rest =>
    (rest.foldl matAdd p0).map (fun row => row.map (fun v => v / (ps.length : ℚ)))

/-- Scale a prediction matrix by a scalar weight. -/
def matScale (w : ℚ) (A : List (List ℚ)) : List (List ℚ) :=
  A.map (fun row => row.map (fun v => v * w))

/-- Embeds `ShardAggregator._aggregate_weighted`: weighted sum of prediction
matrices, each weight looked up with fallback `1.0 / len(predictions)`. -/
def aggregateWeighted (preds : List (Nat × List (List ℚ)))
    (weights : List (Nat × ℚ)) : List (List ℚ) :=
  match preds with
  | [] => []
  | p :: rest =>
    rest.foldl
      (fun acc q =>
        matAdd acc
          (matScale ((alookup weights q.1).getD (1 / (preds.length : ℚ))) q.2))
      (matScale ((alookup weights p.1).getD (1 / (preds.length : ℚ))) p.2)

/-- Embeds `ShardAggregator.predict` (aggregator.py lines 44-84).  The very
first statement of the source takes `next(iter(self.models.values()))` to pick
a device, so with zero shard models the call raises StopIteration before
anything else happens; that is the error this embedding returns for an empty
model dict. -/
def predict {I : Type} (a : ShardAggregator I) (x : List I) :
    Except PyErr (List (List ℚ)) :=
  match a.models with
  | [] => Except.error PyErr.stopIteration
  | _ :: _ =>
    let preds := a.models.map (fun p => (p.1, x.map p.2))
    match a.method with
    | AggMethod.mean => Except.ok (aggregateMean (preds.map (fun p => p.2)))
    | AggMethod.vote => Except.ok (aggregateVote (preds.map (fun p => p.2)))
    | AggMethod.weighted => Except.ok (aggregateWeighted preds a.weights)

/-- Concrete two-shard, two-sample, two-class prediction family used to
instantiate the vote-aggregation theorem. -/
def c10ps : List (List (List ℚ)) := [[[1, 0], [0, 1]], [[1, 2], [3, 1]]]

/-- Concrete four-shard aggregator with the equal weights that `__init__`
assigns, used to instantiate the renormalization theorem. -/
def c7agg : ShardAggregator Unit :=
  { models := [(0, fun _ => [1]), (1, fun _ => [1]), (2, fun _ => [1]), (3, fun _ => [1])]
    method := AggMethod.mean
    weights := [(0, 1/4), (1, 1/4), (2, 1/4), (3, 1/4)] }

/-!  Embedding of src/core/sisa/shard_manager.py (ShardManager).

The `shard_id` uuid, `model_path` and the two wall-clock timestamps of
ShardInfo are omitted: they are random or clock valued and no claim mentions
them.  Everything else keeps the source field and method names.  -/

/-- Per-shard bookkeeping record (shard_manager.py lines 19-33). -/
structure ShardInfo where
  shard_index : Nat
  num_samples : Nat
  data_indices : List Nat
  deriving DecidableEq, Repr

/-- Mapping of a data id to its shard (shard_manager.py lines 36-42);
the uuid-valued `shard_id` field is omitted. -/
structure DataMapping where
  data_id : String
  data_index : Nat
  shard_index : Nat
  deriving DecidableEq, Repr

/-- State of a ShardManager: the three dicts plus the two configuration
fields (storage path and manager uuid omitted). -/
structure ShardManager where
  num_shards : Nat
  random_seed : Nat
  shards : List (Nat × ShardInfo)
  data_to_shard : List (String × DataMapping)
  index_to_data_id : List (Nat × String)
  deriving DecidableEq, Repr

/-- One step of the modelled numpy global generator (a linear congruential
step).  The exact MT19937 stream of numpy is not reproduced; what the
embedding keeps, and all that the claims rely on, is that every draw is a
pure function of the generator state. -/
def randStep (s : Nat) : Nat := (1664525 * s + 1013904223) % 4294967296

/-- Modelled `np.random.seed(seed)`: the global generator state is replaced
by a state computed from the seed alone, discarding the previous state. -/
def npSeedState (seed : Nat) : Nat := randStep seed

/-- Selection shuffle driven by the modelled generator: repeatedly draw an
index and move that element to the front.  Models `np.random.permutation`:
a pseudo-random permutation of the input that is a pure function of the
generator state. -/
def shuffleSel : Nat → List Nat → Nat → List Nat
  | 0, l, _ => l
  | _ + 1, [], _ => []
  | fuel + 1, a :: rest, s =>
    let s2 := randStep s
    let j := s2 % (a :: rest).length
    let x := (a :: rest).getD j 0
    x :: shuffleSel fuel ((a :: rest).erase x) s2

/-- Modelled `np.random.permutation(n)` at generator state `state`. -/
def npPermutation (state n : Nat) : List Nat :=
  shuffleSel n (List.range n) state

/-- Section sizes used by `np.array_split(arr, k)`: `len % k` sections of
size `len / k + 1` followed by the rest of size `len / k`. -/
def arraySplitSizes (n k : Nat) : List Nat :=
  List.replicate (n % k) (n / k + 1) ++ List.replicate (k - n % k) (n / k)

/-- Cut a list into consecutive sections of the given sizes. -/
def splitBySizes {α : Type} : List α → List Nat → List (List α)
  | _, [] => []
  | l, s :: rest => l.take s :: splitBySizes (l.drop s) rest

/-- Embeds `np.array_split(arr, k)`: `k` near-equal contiguous sections;
numpy raises ValueError when the section count is not positive (for a
natural-number count that is `k = 0`). -/
def array_split {α : Type} (l : List α) (k : Nat) : Except PyErr (List (List α)) :=
  if k = 0 then Except.error PyErr.valueError
  else Except.ok (splitBySizes l (arraySplitSizes l.length k))

/-- The default data ids `data_0, data_1, ...` generated by create_shards
when none are passed (shard_manager.py line 92). -/
def defaultDataIds (n : Nat) : List String :=
  (List.range n).map (fun i => "data_" ++ toString i)

/-- The per-shard registration loop of create_shards (shard_manager.py lines
108-137): for each index list in order, store its ShardInfo under the next
shard index and map every member data id to that shard. -/
def addShards : ShardManager → List (List Nat) → Nat → ShardManager
  | m, [], _ => m
  | m, idxs :: rest, shard_idx =>
    let info : ShardInfo :=
      { shard_index := shard_idx, num_samples := idxs.length, data_indices := idxs }
    let m1 : ShardManager := { m with shards := aset m.shards shard_idx info }
    let m2 : ShardManager := idxs.foldl
      (fun acc di =>
        let did := (alookup acc.index_to_data_id di).getD ""
        let mp : DataMapping :=
          { data_id := did, data_index := di, shard_index := shard_idx }
        { acc with data_to_shard := aset acc.data_to_shard did mp })
      m1
    addShards m2 rest (shard_idx + 1)

/-- Embeds `ShardManager.create_shards` (shard_manager.py lines 73-139) for a
dataset of length `n`.  `g` is the incoming global numpy generator state; the
source calls `np.random.seed(self.random_seed)` before drawing, so `g` is
overwritten and never read.  A mismatched explicit id list raises ValueError;
`index_to_data_id` is populated before the permutation is split, so those
entries survive an `array_split` failure; the mutated manager is returned
together with the per-shard index lists.  Note the source validates the
shard count nowhere: the only failure tied to it is the ValueError that
`np.array_split` itself raises for a non-positive section count. -/
def create_shards (m : ShardManager) (g : Nat) (n : Nat)
    (dataIds : Option (List String)) :
    ShardManager × Except PyErr (List (List Nat)) :=
  let ids := dataIds.getD (defaultDataIds n)
  if ids.length ≠ n then (m, Except.error PyErr.valueError)
  else
    let m1 : ShardManager :=
      { m with index_to_data_id :=
          (List.range n).foldl (fun acc i => aset acc i (ids.getD i "")) m.index_to_data_id }
    let perm := npPermutation (npSeedState m.random_seed) n
    match array_split perm m.num_shards with
    | Except.error e => (m1, Except.error e)
    | Except.ok shardLists => (addShards m1 shardLists 0, Except.ok shardLists)

/-- Embeds `ShardManager.get_shard_for_data` (shard_manager.py lines
141-146): shard index of a data id, `none` standing for NotFound. -/
def get_shard_for_data (m : ShardManager) (did : String) : Option Nat :=
  (alookup m.data_to_shard did).map (fun mp => mp.shard_index)

/-- Total number of samples tracked across all shards. -/
def totalSamples (m : ShardManager) : Nat :=
  (m.shards.map (fun p => p.2.num_samples)).sum

/-- Embeds `ShardManager.remove_data_from_shard` (shard_manager.py lines
166-195): look the id up, shrink the owning shard if it holds the index,
then delete both mapping entries. -/
def remove_data_from_shard (m : ShardManager) (did : String) :
    ShardManager × Option Nat :=
  match alookup m.data_to_shard did with
  | none => (m, none)
  | some mp =>
    let shards1 :=
      match alookup m.shards mp.shard_index with
      | none => m.shards
      | some sh =>
        if mp.data_index ∈ sh.data_indices then
          aset m.shards mp.shard_index
            { sh with data_indices := sh.data_indices.erase mp.data_index,
                      num_samples := sh.num_samples - 1 }
        else m.shards
    let d2s := aerase m.data_to_shard did
    let i2d :=
      if (alookup m.index_to_data_id mp.data_index).isSome then
        aerase m.index_to_data_id mp.data_index
      else m.index_to_data_id
    ({ m with shards := shards1, data_to_shard := d2s, index_to_data_id := i2d },
     some mp.shard_index)

/-!  Embedding of src/core/verification/membership_inference.py and
src/core/unlearning/gradient_ascent.py verification.

A model is embedded as a map from one input to its per-class probability
vector (the spec treats TrainableModel as producing probability-like
outputs and excludes framework internals).  Softmax is strictly monotone,
so the argmax the source takes on logits agrees with the argmax on the
probability vector, and `probs.gather(1, y)` is exactly the entry of the
probability vector at the true label.  -/

/-- Probability the model assigns to the true label of a sample — the
per-sample confidence of membership_inference.py line 92. -/
def confidenceOf {I : Type} (model : I → List ℚ) (x : I) (y : Nat) : ℚ :=
  (model x).getD y 0

/-- Predicted class of a sample: `logits.max(1)` index. -/
def predictedClass {I : Type} (model : I → List ℚ) (x : I) : Nat :=
  argmaxIdx (model x)

/-- Mean confidence over a dataset: `np.mean` of the collected per-sample
confidences. -/
def meanConfidence {I : Type} (model : I → List ℚ) (data : List (I × Nat)) : ℚ :=
  (data.map (fun p => confidenceOf model p.1 p.2)).sum / (data.length : ℚ)

/-- Accuracy over a dataset: `correct / total if total > 0 else 0`
(membership_inference.py line 113). -/
def accuracyOn {I : Type} (model : I → List ℚ) (data : List (I × Nat)) : ℚ :=
  if 0 < data.length then
    (data.countP (fun p => decide (predictedClass model p.1 = p.2)) : ℚ)
      / (data.length : ℚ)
  else 0

/-- The attack statistics used by the claims (max, min, std and the member
counts of the source result dict are omitted: no claim mentions them). -/
structure AttackStats where
  mean_confidence : ℚ
  accuracy : ℚ
  num_samples : Nat
  deriving DecidableEq, Repr

/-- Embeds `MembershipInference.attack` (membership_inference.py lines
62-119).  On an empty dataset the source reaches `np.max(confidences)` on a
zero-size array, which raises ValueError, so the embedding errors there. -/
def attack {I : Type} (model : I → List ℚ) (data : List (I × Nat)) :
    Except PyErr AttackStats :=
  if data.isEmpty then Except.error PyErr.valueError
  else Except.ok
    { mean_confidence := meanConfidence model data,
      accuracy := accuracyOn model data,
      num_samples := data.length }

/-- The verification dict built by `_verify_unlearning`. -/
structure VerificationOutcome where
  forget_confidence : ℚ
  forget_accuracy : ℚ
  retain_confidence : ℚ
  retain_accuracy : ℚ
  success : Bool
  deriving DecidableEq, Repr

/-- Embeds `UnlearningEngine._verify_unlearning` (gradient_ascent.py lines
275-311): attack the forget set and the retain set, and succeed exactly when
the forget-set mean confidence is below the configured threshold and the
retain-set accuracy is above the hardcoded 0.85 floor. -/
def verify_unlearning {I : Type} (model : I → List ℚ)
    (forget retain : List (I × Nat)) (threshold : ℚ) :
    Except PyErr VerificationOutcome :=
  match attack model forget with
  | Except.error e => Except.error e
  | Except.ok f =>
    match attack model retain with
    | Except.error e => Except.error e
    | Except.ok r =>
      Except.ok
        { forget_confidence := f.mean_confidence,
          forget_accuracy := f.accuracy,
          retain_confidence := r.mean_confidence,
          retain_accuracy := r.accuracy,
          success := decide (f.mean_confidence < threshold)
            && decide (r.accuracy > 85 / 100) }

/-!  Embedding of src/core/unlearning/fisher.py (FisherComputer).  -/

/-- The examples actually processed by the Fisher loop: the batch loop and
the inner per-example loop both break once `num_samples` examples are seen,
so exactly the first `min(cap, len)` examples in loader order contribute. -/
def fisherProcessed {E : Type} (examples : List E) (cap : Option Nat) : List E :=
  match cap with
  | none => examples
  | some c => examples.take c

/-- Embeds `FisherComputer.compute` (fisher.py lines 31-104) over an abstract
per-example gradient oracle `gradFn`, standing for the autograd call
`log_probs[i, batch_y[i]].backward()` (the spec excludes automatic
differentiation internals; parameter arrays are flattened to vectors).  For
every trainable named parameter listed in `shapes`, the square of each
per-example gradient is accumulated into a zero vector and the total is
divided by the number of samples processed. -/
def fisher_compute {E : Type} (shapes : List (String × Nat))
    (gradFn : E → String → List ℚ) (examples : List E) (cap : Option Nat) :
    List (String × List ℚ) :=
  let processed := fisherProcessed examples cap
  let n := processed.length
  shapes.map (fun p =>
    (p.1,
      (processed.foldl
          (fun acc e => acc.zipWith (fun a gcomp => a + gcomp ^ 2) (gradFn e p.1))
          (List.replicate p.2 (0 : ℚ))).map (fun v => v / (n : ℚ))))

/-!  Control-flow embedding of src/core/unlearning/gradient_ascent.py
UnlearningEngine.unlearn (lines 86-273).

The epoch loop body (autograd, SGD with momentum, gradient clipping) is
abstracted as the `trainLoop` parameter — the spec declares framework
internals out of scope, and no claim depends on the loop body.  What is kept
is the exact order of effects around it: the optional Fisher pass on the
retain set, then the construction of the forget-set DataLoader with
`shuffle=True` (lines 116-120).  That constructor builds a RandomSampler,
and for a zero-length dataset RandomSampler rejects `num_samples=0` with a
ValueError, so an empty forget set fails already at loader construction —
before `next(iter(forget_loader))` at line 137 is ever reached and before
any weight is touched; the source has no empty-forget-set check and no
skipped result.  Otherwise the loop runs and `_verify_unlearning` is invoked
automatically on the result.  -/
def unlearn {I M : Type} (model : M) (evalModel : M → I → List ℚ)
    (useFisher : Bool)
    (fisherOn : List (I × Nat) → List (String × List ℚ))
    (trainLoop : M → Option (List (String × List ℚ)) →
      List (I × Nat) → List (I × Nat) → M)
    (forget retain : List (I × Nat)) (threshold : ℚ) :
    M × Except PyErr VerificationOutcome :=
  let fisher := if useFisher then some (fisherOn retain) else none
  match forget with
  | [] => (model, Except.error PyErr.valueError)
  | _ :: _ =>
    let trained := trainLoop model fisher forget retain
    match verify_unlearning (evalModel trained) forget retain threshold with
    | Except.error e => (trained, Except.error e)
    | Except.ok v => (trained, Except.ok v)

/-!  Theorems.  -/

theorem alookup_aset_self {α β : Type} [DecidableEq α]
    (l : List (α × β)) (k : α) (v : β) : alookup (aset l k v) k = some v := by
  induction l with
  | nil => simp [aset, alookup]
  | cons hd tl ih =>
    by_cases h : hd.1 = k
    · simp [aset, alookup, h]
    · simp [aset, alookup, h, ih]

theorem alookup_of_key_absent {α β : Type} [DecidableEq α]
    (l : List (α × β)) (k : α) (h : k ∉ l.map Prod.fst) :
    alookup l k = none := by
  induction l with
  | nil => simp [alookup]
  | cons hd tl ih =>
    simp only [List.map_cons, List.mem_cons] at h
    push_neg at h
    rw [alookup, if_neg (Ne.symm h.1)]
    exact ih h.2

theorem alookup_aerase_self {α β : Type} [DecidableEq α]
    (l : List (α × β)) (k : α) (hnd : (l.map Prod.fst).Nodup) :
    alookup (aerase l k) k = none := by
  induction l with
  | nil => simp [aerase, alookup]
  | cons hd tl ih =>
    simp only [List.map_cons, List.nodup_cons] at hnd
    by_cases h : hd.1 = k
    · subst h
      simp only [aerase, if_pos rfl]
      exact alookup_of_key_absent tl hd.1 hnd.1
    · simp only [aerase, if_neg h, alookup, if_neg h]
      exact ih hnd.2

/-- Sum bookkeeping for `aset`: replacing the value stored at a present key
swaps exactly that contribution of the summed function. -/
theorem sum_map_aset_nat {α β : Type} [DecidableEq α]
    (l : List (α × β)) (k : α) (v v2 : β) (f : β → Nat)
    (hl : alookup l k = some v) :
    ((aset l k v2).map (fun p => f p.2)).sum + f v
      = (l.map (fun p => f p.2)).sum + f v2 := by
  induction l with
  | nil => simp [alookup] at hl
  | cons hd tl ih =>
    by_cases h : hd.1 = k
    · simp only [alookup, if_pos h, Option.some.injEq] at hl
      subst hl
      simp only [aset, if_pos h, List.map_cons, List.sum_cons]
      omega
    · simp only [alookup, if_neg h] at hl
      simp only [aset, if_neg h, List.map_cons, List.sum_cons]
      have := ih hl
      omega

/-- An `aset` on an absent key appends the binding at the end
(Python dict insertion order). -/
theorem aset_of_absent {α β : Type} [DecidableEq α]
    (l : List (α × β)) (k : α) (v : β) (h : alookup l k = none) :
    aset l k v = l ++ [(k, v)] := by
  induction l with
  | nil => simp [aset]
  | cons hd tl ih =>
    by_cases hk : hd.1 = k
    · simp [alookup, hk] at h
    · simp only [alookup, if_neg hk] at h
      simp [aset, hk, ih h]

theorem alookup_append_left {α β : Type} [DecidableEq α]
    (l1 l2 : List (α × β)) (k : α) (h : alookup l1 k = none) :
    alookup (l1 ++ l2) k = alookup l2 k := by
  induction l1 with
  | nil => simp
  | cons hd tl ih =>
    by_cases hk : hd.1 = k
    · simp [alookup, hk] at h
    · simp only [alookup, if_neg hk] at h
      simp only [List.cons_append, alookup, if_neg hk]
      exact ih h

theorem sum_map_div (l : List (Nat × ℚ)) (t : ℚ) :
    ((l.map (fun p => (p.1, p.2 / t))).map (fun p => p.2)).sum
      = (l.map (fun p => p.2)).sum / t := by
  induction l with
  | nil => simp
  | cons hd tl ih =>
    simp only [List.map_cons, List.sum_cons, ih]
    ring

theorem alookup_map_val {α β γ : Type} [DecidableEq α]
    (l : List (α × β)) (g : β → γ) (k : α) :
    alookup (l.map (fun p => (p.1, g p.2))) k = (alookup l k).map g := by
  induction l with
  | nil => simp [alookup]
  | cons hd tl ih =>
    by_cases h : hd.1 = k
    · simp [alookup, h]
    · simp [alookup, h, ih]

/-- C7: removing a present shard from an aggregator with at least two shards
deletes that shard from both the model dict and the weight dict and divides
each remaining weight by the sum of the remaining weights, so the remaining
weights sum to 1. -/
theorem remove_shard_renormalizes {I : Type} (a : ShardAggregator I) (i : Nat)
    (hm : (alookup a.models i).isSome = true)
    (hw : (alookup a.weights i).isSome = true)
    (h2 : 2 ≤ a.models.length)
    (hmk : (a.models.map Prod.fst).Nodup)
    (hwk : (a.weights.map Prod.fst).Nodup)
    (hpos : 0 < ((aerase a.weights i).map (fun p => p.2)).sum) :
    alookup (remove_shard a i).models i = none ∧
    alookup (remove_shard a i).weights i = none ∧
    (remove_shard a i).weights
      = (aerase a.weights i).map
          (fun p => (p.1, p.2 / ((aerase a.weights i).map (fun q => q.2)).sum)) ∧
    ((remove_shard a i).weights.map (fun p => p.2)).sum = 1 := by
  have hcm : alookup (aerase a.models i) i = none := alookup_aerase_self _ _ hmk
  have hcw : alookup (aerase a.weights i) i = none := alookup_aerase_self _ _ hwk
  simp only [remove_shard, hm, hw, if_true, if_pos hpos]
  refine ⟨hcm, ?_, trivial, ?_⟩
  · rw [alookup_map_val (aerase a.weights i)
      (fun v => v / ((aerase a.weights i).map (fun p => p.2)).sum) i, hcw]
    rfl
  · rw [sum_map_div]
    exact div_self (ne_of_gt hpos)

/-- Witness for C7: four shards weighted 1/4 each; removing shard 0 leaves
three shards each weighted exactly 1/3, summing to 1. -/
theorem remove_shard_renormalizes_witness :
    ((alookup c7agg.models 0).isSome = true ∧
     (alookup c7agg.weights 0).isSome = true ∧
     2 ≤ c7agg.models.length ∧
     (c7agg.models.map Prod.fst).Nodup ∧
     (c7agg.weights.map Prod.fst).Nodup ∧
     0 < ((aerase c7agg.weights 0).map (fun p => p.2)).sum) ∧
    (alookup (remove_shard c7agg 0).models 0 = none ∧
     alookup (remove_shard c7agg 0).weights 0 = none ∧
     (remove_shard c7agg 0).weights
       = (aerase c7agg.weights 0).map
           (fun p => (p.1, p.2 / ((aerase c7agg.weights 0).map (fun q => q.2)).sum)) ∧
     ((remove_shard c7agg 0).weights.map (fun p => p.2)).sum = 1) ∧
    (remove_shard c7agg 0).weights = [(1, 1/3), (2, 1/3), (3, 1/3)] :=
  ⟨⟨by decide, by decide, by decide, by decide, by decide,
     by norm_num [c7agg, aerase]⟩,
   remove_shard_renormalizes c7agg 0 (by decide) (by decide) (by decide)
     (by decide) (by decide) (by norm_num [c7agg, aerase]),
   by norm_num [remove_shard, c7agg, aerase, alookup]⟩

/-- C9 counterexample: with zero shard models, `predict` does fail, but the
failure is the StopIteration raised by `next(iter(self.models.values()))` in
the device lookup, not the `EmptyAggregatorError` the claim names (no such
class exists in the source). -/
theorem predict_empty_not_emptyAggregatorError :
    predict ({ models := [], method := AggMethod.mean, weights := [] } :
        ShardAggregator Unit) [()]
      = Except.error PyErr.stopIteration ∧
    (Except.error PyErr.stopIteration : Except PyErr (List (List ℚ)))
      ≠ Except.error PyErr.emptyAggregatorError := by
  constructor
  · rfl
  · intro h
    exact PyErr.noConfusion (Except.error.inj h)

/-- C9 (amended): calling `predict` on an aggregator that holds zero shard
models fails, raising StopIteration (from fetching the first model to pick a
device), for every aggregation method, weight table and input batch. -/
theorem predict_empty_fails {I : Type} (method : AggMethod)
    (weights : List (Nat × ℚ)) (x : List I) :
    predict { models := [], method := method, weights := weights } x
      = Except.error PyErr.stopIteration := rfl

theorem bumpAt_length (row : List ℚ) (j : Nat) :
    (bumpAt row j).length = row.length := by
  induction row generalizing j with
  | nil => rfl
  | cons x xs ih =>
    cases j with
    | zero => rfl
    | succ n => simp [bumpAt, ih]

theorem bumpAt_sum (row : List ℚ) (j : Nat) (h : j < row.length) :
    (bumpAt row j).sum = row.sum + 1 := by
  induction row generalizing j with
  | nil => simp at h
  | cons x xs ih =>
    cases j with
    | zero => simp [bumpAt]; ring
    | succ n =>
      simp only [List.length_cons, Nat.succ_lt_succ_iff] at h
      simp [bumpAt, ih n h]; ring

theorem bumpAt_getD (row : List ℚ) (j : Nat) (h : j < row.length) (c : Nat) :
    (bumpAt row j).getD c 0 = row.getD c 0 + (if c = j then 1 else 0) := by
  induction row generalizing j c with
  | nil => simp at h
  | cons x xs ih =>
    cases j with
    | zero =>
      cases c with
      | zero => simp [bumpAt]
      | succ m => simp [bumpAt]
    | succ n =>
      simp only [List.length_cons, Nat.succ_lt_succ_iff] at h
      cases c with
      | zero => simp [bumpAt]
      | succ m => simpa [bumpAt] using ih n h m

theorem argmaxAux_lt (rest : List ℚ) :
    ∀ (i best : Nat) (bv : ℚ), best < i →
      argmaxAux rest i best bv < i + rest.length := by
  induction rest with
  | nil =>
    intro i best bv h
    simpa [argmaxAux] using h
  | cons v vs ih =>
    intro i best bv h
    simp only [argmaxAux, List.length_cons]
    by_cases hv : bv < v
    · rw [if_pos hv]
      have := ih (i + 1) i v (Nat.lt_succ_self i)
      omega
    · rw [if_neg hv]
      have := ih (i + 1) best bv (Nat.lt_succ_of_lt h)
      omega

theorem argmaxIdx_lt (l : List ℚ) (h : l ≠ []) : argmaxIdx l < l.length := by
  cases l with
  | nil => exact absurd rfl h
  | cons v rest =>
    have := argmaxAux_lt rest 1 0 v Nat.zero_lt_one
    simp only [argmaxIdx, List.length_cons]
    omega

theorem zipWith_bumpAt_getD (acc : List (List ℚ)) (vs : List Nat)
    (b : Nat) (hb : b < acc.length) (hlen : acc.length = vs.length) :
    (acc.zipWith bumpAt vs).getD b [] = bumpAt (acc.getD b []) (vs.getD b 0) := by
  induction acc generalizing vs b with
  | nil => simp at hb
  | cons r rs ih =>
    cases vs with
    | nil => simp at hlen
    | cons v vrest =>
      cases b with
      | zero => simp [List.zipWith]
      | succ n =>
        simp only [List.length_cons, Nat.succ_lt_succ_iff] at hb
        simp only [List.length_cons, Nat.succ.injEq] at hlen
        simpa [List.zipWith] using ih vrest n hb hlen

/-- Core induction for C10: folding the per-shard vote rows into an
accumulator matrix keeps the shape, adds the per-class vote count to every
entry, and adds one vote per shard to every row sum. -/
theorem voteFold_props (vss : List (List Nat)) (B C : Nat) :
    ∀ acc : List (List ℚ),
      acc.length = B → (∀ row ∈ acc, row.length = C) →
      (∀ vs ∈ vss, vs.length = B ∧ ∀ v ∈ vs, v < C) →
      (vss.foldl (fun a vrow => a.zipWith bumpAt vrow) acc).length = B ∧
      (∀ row ∈ vss.foldl (fun a vrow => a.zipWith bumpAt vrow) acc,
        row.length = C) ∧
      (∀ b, b < B → ∀ c,
        ((vss.foldl (fun a vrow => a.zipWith bumpAt vrow) acc).getD b []).getD c 0
          = (acc.getD b []).getD c 0
              + (vss.countP (fun vs => decide (vs.getD b 0 = c)) : ℚ)) ∧
      (∀ b, b < B →
        ((vss.foldl (fun a vrow => a.zipWith bumpAt vrow) acc).getD b []).sum
          = (acc.getD b []).sum + vss.length) := by
  induction vss with
  | nil =>
    intro acc hlen hrows _
    refine ⟨hlen, hrows, ?_, ?_⟩
    · intro b _ c
      simp
    · intro b _
      simp
  | cons vs vss ih =>
    intro acc hlen hrows hv
    have hvs := hv vs (List.mem_cons_self vs vss)
    have hrest : ∀ w ∈ vss, w.length = B ∧ ∀ v ∈ w, v < C :=
      fun w hw => hv w (List.mem_cons_of_mem vs hw)
    have hacc2len : (acc.zipWith bumpAt vs).length = B := by
      simp [List.length_zipWith, hlen, hvs.1]
    have hacc2rows : ∀ row ∈ acc.zipWith bumpAt vs, row.length = C := by
      intro row hrow
      rw [List.mem_iff_getElem] at hrow
      obtain ⟨n, hn, hrow⟩ := hrow
      rw [List.getElem_zipWith] at hrow
      rw [← hrow, bumpAt_length]
      exact hrows _ (List.getElem_mem _)
    have hgetb : ∀ b, b < B →
        (acc.zipWith bumpAt vs).getD b [] = bumpAt (acc.getD b []) (vs.getD b 0) := by
      intro b hb
      exact zipWith_bumpAt_getD acc vs b (hlen ▸ hb) (by rw [hlen, hvs.1])
    have hrowb : ∀ b, b < B → (acc.getD b []).length = C := by
      intro b hb
      have hbl : b < acc.length := hlen ▸ hb
      rw [List.getD_eq_getElem acc [] hbl]
      exact hrows _ (List.getElem_mem _)
    have hvoteb : ∀ b, b < B → vs.getD b 0 < C := by
      intro b hb
      have hbl : b < vs.length := hvs.1 ▸ hb
      rw [List.getD_eq_getElem vs 0 hbl]
      exact hvs.2 _ (List.getElem_mem _)
    obtain ⟨l1, l2, l3, l4⟩ := ih (acc.zipWith bumpAt vs) hacc2len hacc2rows hrest
    refine ⟨l1, l2, ?_, ?_⟩
    · intro b hb c
      rw [List.foldl_cons] at *
      rw [l3 b hb c, hgetb b hb,
        bumpAt_getD _ _ (by rw [hrowb b hb]; exact hvoteb b hb) c]
      rw [List.countP_cons]
      push_cast
      simp only [decide_eq_true_eq]
      by_cases hc : vs.getD b 0 = c
      · rw [if_pos hc.symm, if_pos hc]
        ring
      · rw [if_neg (fun h2 => hc h2.symm), if_neg hc]
        ring
    · intro b hb
      rw [List.foldl_cons] at *
      rw [l4 b hb, hgetb b hb,
        bumpAt_sum _ _ (by rw [hrowb b hb]; exact hvoteb b hb)]
      simp only [List.length_cons]
      push_cast
      ring

theorem getD_replicate_zero (C c : Nat) : (List.replicate C (0 : ℚ)).getD c 0 = 0 := by
  induction C generalizing c with
  | zero => simp
  | succ n ih =>
    cases c with
    | zero => simp [List.replicate]
    | succ m =>
      rw [List.replicate]
      exact ih m

theorem getD_map_argmaxIdx (p : List (List ℚ)) (b : Nat) :
    (p.map argmaxIdx).getD b 0 = argmaxIdx (p.getD b []) := by
  induction p generalizing b with
  | nil => simp [argmaxIdx]
  | cons hd tl ih =>
    cases b with
    | zero => simp
    | succ n => simpa using ih n

/-- C10: for a non-empty family of per-shard prediction matrices of a common
shape [batch, classes], `_aggregate_vote` returns a batch-by-num-classes
matrix whose `(b, c)` entry is the (cast) number of shards whose argmax for
sample `b` is class `c` — a non-negative integer, one vote per shard — and
every row sums to exactly the number of shards. -/
theorem aggregateVote_counts (ps : List (List (List ℚ))) (B C : Nat)
    (hne : ps ≠ []) (hBpos : 0 < B) (hCpos : 0 < C)
    (hB : ∀ p ∈ ps, p.length = B)
    (hC : ∀ p ∈ ps, ∀ row ∈ p, row.length = C) :
    (aggregateVote ps).length = B ∧
    (∀ row ∈ aggregateVote ps, row.length = C) ∧
    (∀ b, b < B → ∀ c,
      ((aggregateVote ps).getD b []).getD c 0
        = (ps.countP (fun p => decide (argmaxIdx (p.getD b []) = c)) : ℚ)) ∧
    (∀ b, b < B → ((aggregateVote ps).getD b []).sum = ps.length) := by
  obtain ⟨p0, rest, rfl⟩ : ∃ p0 rest, ps = p0 :: rest := by
    cases ps with
    | nil => exact absurd rfl hne
    | cons p0 rest => exact ⟨p0, rest, rfl⟩
  have hB0 : p0.length = B := hB p0 (List.mem_cons_self p0 rest)
  obtain ⟨r0, prows, rfl⟩ : ∃ r0 prows, p0 = r0 :: prows := by
    cases p0 with
    | nil => simp at hB0; omega
    | cons r0 prows => exact ⟨r0, prows, rfl⟩
  have hC0 : r0.length = C :=
    hC _ (List.mem_cons_self _ rest) r0 (List.mem_cons_self r0 prows)
  have hkey : aggregateVote ((r0 :: prows) :: rest)
      = (((r0 :: prows) :: rest).map (fun p => p.map argmaxIdx)).foldl
          (fun a vrow => a.zipWith bumpAt vrow)
          (List.replicate B (List.replicate C (0 : ℚ))) := by
    simp only [aggregateVote, List.map_cons, List.headD_cons, List.length_map]
    have hlen2 : (argmaxIdx r0 :: List.map argmaxIdx prows).length = B := by
      simpa using hB0
    rw [hlen2, hC0]
  have hvotes : ∀ vs ∈ ((r0 :: prows) :: rest).map (fun p => p.map argmaxIdx),
      vs.length = B ∧ ∀ v ∈ vs, v < C := by
    intro vs hvs
    rw [List.mem_map] at hvs
    obtain ⟨p, hp, rfl⟩ := hvs
    refine ⟨by simpa using hB p hp, ?_⟩
    intro v hv
    rw [List.mem_map] at hv
    obtain ⟨row, hrow, rfl⟩ := hv
    have hrl : row.length = C := hC p hp row hrow
    have hrne : row ≠ [] := by
      intro hcontra
      rw [hcontra] at hrl
      simp at hrl
      omega
    have := argmaxIdx_lt row hrne
    omega
  have hacc1 : (List.replicate B (List.replicate C (0 : ℚ))).length = B := by simp
  have hacc2 : ∀ row ∈ List.replicate B (List.replicate C (0 : ℚ)),
      row.length = C := by
    intro row hrow
    rw [List.eq_of_mem_replicate hrow]
    simp
  have haccget : ∀ b, b < B →
      (List.replicate B (List.replicate C (0 : ℚ))).getD b []
        = List.replicate C (0 : ℚ) := by
    intro b hb
    rw [List.getD_eq_getElem _ _ (by simpa using hb)]
    simp
  obtain ⟨l1, l2, l3, l4⟩ :=
    voteFold_props (((r0 :: prows) :: rest).map (fun p => p.map argmaxIdx)) B C
      (List.replicate B (List.replicate C (0 : ℚ))) hacc1 hacc2 hvotes
  rw [hkey]
  refine ⟨l1, l2, ?_, ?_⟩
  · intro b hb c
    rw [l3 b hb c, haccget b hb, getD_replicate_zero]
    rw [List.countP_map]
    have hcong :
        List.countP
            ((fun vs => decide (vs.getD b 0 = c)) ∘ fun p => p.map argmaxIdx)
            ((r0 :: prows) :: rest)
          = List.countP (fun p => decide (argmaxIdx (p.getD b []) = c))
              ((r0 :: prows) :: rest) := by
      apply List.countP_congr
      intro p hp
      simp only [Function.comp]
      rw [getD_map_argmaxIdx]
    rw [hcong]
    ring
  · intro b hb
    rw [l4 b hb, haccget b hb]
    simp

/-- The selection shuffle returns a permutation of its input for every fuel
and every generator state. -/
theorem shuffleSel_perm : ∀ (fuel : Nat) (l : List Nat) (s : Nat),
    (shuffleSel fuel l s).Perm l := by
  intro fuel
  induction fuel with
  | zero => intro l s; exact List.Perm.refl l
  | succ f ih =>
    intro l s
    cases l with
    | nil => exact List.Perm.refl []
    | cons a rest =>
      have hj : randStep s % (a :: rest).length < (a :: rest).length :=
        Nat.mod_lt _ (by simp)
      have hx : (a :: rest).getD (randStep s % (a :: rest).length) 0 ∈ a :: rest := by
        rw [List.getD_eq_getElem _ _ hj]
        exact List.getElem_mem _
      have hunfold : shuffleSel (f + 1) (a :: rest) s
          = (a :: rest).getD (randStep s % (a :: rest).length) 0
              :: shuffleSel f
                   ((a :: rest).erase
                     ((a :: rest).getD (randStep s % (a :: rest).length) 0))
                   (randStep s) := rfl
      rw [hunfold]
      exact ((ih _ _).cons _).trans (List.perm_cons_erase hx).symm

theorem npPermutation_perm (state n : Nat) :
    (npPermutation state n).Perm (List.range n) :=
  shuffleSel_perm n (List.range n) state

theorem arraySplitSizes_sum (n k : Nat) (hk : 0 < k) :
    (arraySplitSizes n k).sum = n := by
  have h2 := Nat.mod_add_div n k
  have hle : n % k ≤ k := le_of_lt (Nat.mod_lt n hk)
  simp only [arraySplitSizes, List.sum_append, List.sum_replicate, smul_eq_mul]
  zify [hle]
  push_cast at h2
  ring_nf
  ring_nf at h2
  linarith

theorem arraySplitSizes_length (n k : Nat) (hk : 0 < k) :
    (arraySplitSizes n k).length = k := by
  have := Nat.mod_lt n hk
  simp only [arraySplitSizes, List.length_append, List.length_replicate]
  omega

theorem arraySplitSizes_mem (n k s : Nat) (hs : s ∈ arraySplitSizes n k) :
    s = n / k ∨ s = n / k + 1 := by
  simp only [arraySplitSizes, List.mem_append, List.mem_replicate] at hs
  rcases hs with h | h
  · exact Or.inr h.2
  · exact Or.inl h.2

theorem splitBySizes_length {α : Type} (sizes : List Nat) :
    ∀ l : List α, (splitBySizes l sizes).length = sizes.length := by
  induction sizes with
  | nil => intro l; rfl
  | cons s rest ih => intro l; simp [splitBySizes, ih]

theorem splitBySizes_flatten {α : Type} (sizes : List Nat) :
    ∀ l : List α, sizes.sum = l.length → (splitBySizes l sizes).flatten = l := by
  induction sizes with
  | nil =>
    intro l h
    simp only [List.sum_nil] at h
    simp [splitBySizes, (List.length_eq_zero.mp h.symm).symm]
  | cons s rest ih =>
    intro l h
    simp only [List.sum_cons] at h
    simp only [splitBySizes, List.flatten_cons]
    rw [ih (l.drop s) (by simp; omega), List.take_append_drop]

theorem splitBySizes_map_length {α : Type} (sizes : List Nat) :
    ∀ l : List α, sizes.sum ≤ l.length →
      (splitBySizes l sizes).map List.length = sizes := by
  induction sizes with
  | nil => intro l h; rfl
  | cons s rest ih =>
    intro l h
    simp only [List.sum_cons] at h
    simp only [splitBySizes, List.map_cons]
    rw [List.length_take, Nat.min_eq_left (by omega), ih (l.drop s) (by simp; omega)]

/-- C1: for a dataset of `n` records and a shard count between 1 and `n`,
create_shards returns shard index lists that are exactly `num_shards` many,
pairwise disjoint and duplicate free, cover exactly the indices `0..n-1`, and
whose sizes differ by at most 1. -/
theorem create_shards_partition (m : ShardManager) (g n : Nat)
    (h1 : 1 ≤ m.num_shards) (h2 : m.num_shards ≤ n) :
    ∃ lists, (create_shards m g n none).2 = Except.ok lists ∧
      lists.length = m.num_shards ∧
      (∀ i, i ∈ lists.flatten ↔ i < n) ∧
      lists.flatten.Nodup ∧
      List.Pairwise List.Disjoint lists ∧
      ∀ a ∈ lists, ∀ b ∈ lists, a.length ≤ b.length + 1 := by
  have hperm := npPermutation_perm (npSeedState m.random_seed) n
  have hplen : (npPermutation (npSeedState m.random_seed) n).length = n := by
    rw [hperm.length_eq, List.length_range]
  have hk0 : m.num_shards ≠ 0 := by omega
  have hids : (defaultDataIds n).length = n := by simp [defaultDataIds]
  have hsum : (arraySplitSizes n m.num_shards).sum = n :=
    arraySplitSizes_sum n m.num_shards h1
  have hres : (create_shards m g n none).2
      = Except.ok (splitBySizes (npPermutation (npSeedState m.random_seed) n)
          (arraySplitSizes n m.num_shards)) := by
    simp only [create_shards, Option.getD_none]
    rw [if_neg (by simp [hids])]
    simp [array_split, hk0, hplen]
  refine ⟨splitBySizes (npPermutation (npSeedState m.random_seed) n)
    (arraySplitSizes n m.num_shards), hres, ?_, ?_, ?_, ?_, ?_⟩
  · rw [splitBySizes_length, arraySplitSizes_length n m.num_shards h1]
  · intro i
    rw [splitBySizes_flatten _ _ (by rw [hsum, hplen]), hperm.mem_iff,
      List.mem_range]
  · rw [splitBySizes_flatten _ _ (by rw [hsum, hplen])]
    exact hperm.nodup_iff.mpr (List.nodup_range n)
  · have hnd : (splitBySizes (npPermutation (npSeedState m.random_seed) n)
        (arraySplitSizes n m.num_shards)).flatten.Nodup := by
      rw [splitBySizes_flatten _ _ (by rw [hsum, hplen])]
      exact hperm.nodup_iff.mpr (List.nodup_range n)
    exact (List.nodup_flatten.mp hnd).2
  · have hml : (splitBySizes (npPermutation (npSeedState m.random_seed) n)
        (arraySplitSizes n m.num_shards)).map List.length
          = arraySplitSizes n m.num_shards :=
      splitBySizes_map_length _ _ (by rw [hsum, hplen])
    intro a ha b hb
    have hma : a.length ∈ arraySplitSizes n m.num_shards := by
      rw [← hml]
      exact List.mem_map_of_mem List.length ha
    have hmb : b.length ∈ arraySplitSizes n m.num_shards := by
      rw [← hml]
      exact List.mem_map_of_mem List.length hb
    rcases arraySplitSizes_mem _ _ _ hma with h | h <;>
      rcases arraySplitSizes_mem _ _ _ hmb with h3 | h3 <;> omega

/-- Concrete manager for the C1 witness: two shards, seed 42, fresh state. -/
def c1mgr : ShardManager :=
  { num_shards := 2, random_seed := 42, shards := [], data_to_shard := [],
    index_to_data_id := [] }

/-- Witness for C1 at five records split into two shards. -/
theorem create_shards_partition_witness :
    (1 ≤ c1mgr.num_shards ∧ c1mgr.num_shards ≤ 5) ∧
    (∃ lists, (create_shards c1mgr 0 5 none).2 = Except.ok lists ∧
      lists.length = c1mgr.num_shards ∧
      (∀ i, i ∈ lists.flatten ↔ i < 5) ∧
      lists.flatten.Nodup ∧
      List.Pairwise List.Disjoint lists ∧
      ∀ a ∈ lists, ∀ b ∈ lists, a.length ≤ b.length + 1) :=
  ⟨⟨by decide, by decide⟩,
   create_shards_partition c1mgr 0 5 (by decide) (by decide)⟩

/-- C2: the shard partition returned by create_shards depends only on the
dataset length, the shard count and the seed: any two managers agreeing on
`num_shards` and `random_seed`, with arbitrary prior bookkeeping state and
arbitrary incoming global generator states, receive identical index lists
(np.random.seed is called inside, so repeated runs reproduce the partition). -/
theorem create_shards_deterministic (m m2 : ShardManager) (g g2 n : Nat)
    (dataIds : Option (List String))
    (hk : m.num_shards = m2.num_shards) (hs : m.random_seed = m2.random_seed) :
    (create_shards m g n dataIds).2 = (create_shards m2 g2 n dataIds).2 := by
  simp only [create_shards, hk, hs]
  by_cases h : (dataIds.getD (defaultDataIds n)).length ≠ n
  · rw [if_pos h, if_pos h]
  · rw [if_neg h, if_neg h]
    cases harr : array_split (npPermutation (npSeedState m2.random_seed) n)
        m2.num_shards with
    | error e => simp only [harr]
    | ok ls => simp only [harr]

/-- Second concrete manager for the C2 witness: same configuration as
`c1mgr` but nonempty prior bookkeeping state. -/
def c2mgr : ShardManager :=
  { num_shards := 2, random_seed := 42, shards := [], data_to_shard := [],
    index_to_data_id := [(7, "z")] }

/-- Witness for C2: same (N, K, seed) on two different manager states and two
different incoming generator states gives the same partition. -/
theorem create_shards_deterministic_witness :
    (c1mgr.num_shards = c2mgr.num_shards ∧ c1mgr.random_seed = c2mgr.random_seed) ∧
    (create_shards c1mgr 0 5 none).2 = (create_shards c2mgr 99 5 none).2 :=
  ⟨⟨by decide, by decide⟩,
   create_shards_deterministic c1mgr c2mgr 0 99 5 none (by decide) (by decide)⟩

/-- Folding dict assignments over fresh, pairwise distinct keys appends the
bindings in order. -/
theorem foldl_aset_fresh (l : List Nat) (f : Nat → String) :
    ∀ acc : List (Nat × String),
      (∀ i ∈ l, alookup acc i = none) → l.Nodup →
      l.foldl (fun acc2 i => aset acc2 i (f i)) acc
        = acc ++ l.map (fun i => (i, f i)) := by
  induction l with
  | nil => intro acc _ _; simp
  | cons hd tl ih =>
    intro acc hfresh hnd
    simp only [List.foldl_cons, List.map_cons]
    rw [aset_of_absent acc hd (f hd) (hfresh hd (List.mem_cons_self hd tl))]
    rw [ih (acc ++ [(hd, f hd)]) ?_ (List.Nodup.of_cons hnd)]
    · simp
    · intro i hi
      rw [alookup_append_left _ _ _ (hfresh i (List.mem_cons_of_mem hd hi))]
      have hne : hd ≠ i := by
        intro hcontra
        exact (List.nodup_cons.mp hnd).1 (hcontra ▸ hi)
      simp [alookup, hne]

/-- C8 counterexample: with three shards and a single record (K = 3 > N = 1)
create_shards does not fail at all — it returns three shards, two of them
empty, instead of the ConfigurationError the claim requires. -/
theorem create_shards_large_k_no_error :
    (create_shards
        { num_shards := 3, random_seed := 42, shards := [], data_to_shard := [],
          index_to_data_id := [] } 0 1 none).2
      = Except.ok [[0], [], []] := rfl

/-- C8 (amended): create_shards performs no shard-count validation of its
own.  For `K < 1` (that is `K = 0`) it fails with the ValueError that
np.array_split raises, but only after every index-to-id entry has been
populated; for `K > N` it does not fail: it returns `K` index lists of which
exactly `K - N` are empty. -/
theorem create_shards_no_validation (m : ShardManager) (g n : Nat)
    (hidx : m.index_to_data_id = []) :
    (m.num_shards = 0 →
      (create_shards m g n none).2 = Except.error PyErr.valueError ∧
      (create_shards m g n none).1.index_to_data_id
        = (List.range n).map (fun i => (i, (defaultDataIds n).getD i ""))) ∧
    (n < m.num_shards →
      ∃ lists, (create_shards m g n none).2 = Except.ok lists ∧
        lists.length = m.num_shards ∧
        lists.countP (fun l => decide (l.length = 0)) = m.num_shards - n) := by
  have hids : (defaultDataIds n).length = n := by simp [defaultDataIds]
  constructor
  · intro hk
    have hfold : (List.range n).foldl
        (fun acc i => aset acc i ((defaultDataIds n).getD i "")) m.index_to_data_id
          = (List.range n).map (fun i => (i, (defaultDataIds n).getD i "")) := by
      rw [hidx,
        foldl_aset_fresh (List.range n) (fun i => (defaultDataIds n).getD i "")
          [] (fun i _ => rfl) (List.nodup_range n)]
      simp
    constructor
    · simp only [create_shards, Option.getD_none]
      rw [if_neg (by simp [hids])]
      simp [array_split, hk]
    · simp only [create_shards, Option.getD_none]
      rw [if_neg (by simp [hids])]
      simp only [array_split, if_pos hk]
      simpa using hfold
  · intro hk
    have h1 : 1 ≤ m.num_shards := by omega
    have hk0 : m.num_shards ≠ 0 := by omega
    have hperm := npPermutation_perm (npSeedState m.random_seed) n
    have hplen : (npPermutation (npSeedState m.random_seed) n).length = n := by
      rw [hperm.length_eq, List.length_range]
    have hsum : (arraySplitSizes n m.num_shards).sum = n :=
      arraySplitSizes_sum n m.num_shards h1
    have hres : (create_shards m g n none).2
        = Except.ok (splitBySizes (npPermutation (npSeedState m.random_seed) n)
            (arraySplitSizes n m.num_shards)) := by
      simp only [create_shards, Option.getD_none]
      rw [if_neg (by simp [hids])]
      simp [array_split, hk0, hplen]
    refine ⟨_, hres, ?_, ?_⟩
    · rw [splitBySizes_length, arraySplitSizes_length n m.num_shards h1]
    · have hml : (splitBySizes (npPermutation (npSeedState m.random_seed) n)
          (arraySplitSizes n m.num_shards)).map List.length
            = arraySplitSizes n m.num_shards :=
        splitBySizes_map_length _ _ (by rw [hsum, hplen])
      have hcnt : ((splitBySizes (npPermutation (npSeedState m.random_seed) n)
              (arraySplitSizes n m.num_shards)).map List.length).countP
            (fun s => decide (s = 0))
          = (splitBySizes (npPermutation (npSeedState m.random_seed) n)
              (arraySplitSizes n m.num_shards)).countP
            (fun l => decide (l.length = 0)) := by
        rw [List.countP_map]
        rfl
      rw [← hcnt, hml]
      have hmod : n % m.num_shards = n := Nat.mod_eq_of_lt hk
      have hdiv : n / m.num_shards = 0 := Nat.div_eq_of_lt hk
      simp [arraySplitSizes, hmod, hdiv, List.countP_append, List.countP_eq_length_filter]

/-- Concrete manager for the C8 witness: shard count zero, fresh state. -/
def c8mgr : ShardManager :=
  { num_shards := 0, random_seed := 7, shards := [], data_to_shard := [],
    index_to_data_id := [] }

/-- Witness for C8 at K = 0 with two records (the K > N branch is vacuous at
this instantiation; `create_shards_large_k_no_error` exercises K > N). -/
theorem create_shards_no_validation_witness :
    c8mgr.index_to_data_id = [] ∧
    ((c8mgr.num_shards = 0 →
      (create_shards c8mgr 3 2 none).2 = Except.error PyErr.valueError ∧
      (create_shards c8mgr 3 2 none).1.index_to_data_id
        = (List.range 2).map (fun i => (i, (defaultDataIds 2).getD i ""))) ∧
    (2 < c8mgr.num_shards →
      ∃ lists, (create_shards c8mgr 3 2 none).2 = Except.ok lists ∧
        lists.length = c8mgr.num_shards ∧
        lists.countP (fun l => decide (l.length = 0)) = c8mgr.num_shards - 2)) :=
  ⟨rfl, create_shards_no_validation c8mgr 3 2 rfl⟩

/-- C3: removing a data id that is present in the index, in a state where the
owning shard holds its index and satisfies the `num_samples = len(indices)`
invariant, makes the id unfindable, shrinks the owning shard by exactly one
sample while keeping the invariant, and shrinks the total sample count across
all shards by exactly one. -/
theorem remove_data_consistency (m : ShardManager) (did : String)
    (mp : DataMapping) (sh : ShardInfo)
    (hmp : alookup m.data_to_shard did = some mp)
    (hsh : alookup m.shards mp.shard_index = some sh)
    (hmem : mp.data_index ∈ sh.data_indices)
    (hinv : sh.num_samples = sh.data_indices.length)
    (hdk : (m.data_to_shard.map Prod.fst).Nodup) :
    (remove_data_from_shard m did).2 = some mp.shard_index ∧
    get_shard_for_data (remove_data_from_shard m did).1 did = none ∧
    (∃ sh2, alookup (remove_data_from_shard m did).1.shards mp.shard_index
        = some sh2 ∧
      sh2.num_samples + 1 = sh.num_samples ∧
      sh2.num_samples = sh2.data_indices.length) ∧
    totalSamples (remove_data_from_shard m did).1 + 1 = totalSamples m := by
  have hpos : 1 ≤ sh.data_indices.length := List.length_pos.mpr (by
    intro hcontra
    rw [hcontra] at hmem
    exact (List.not_mem_nil _ hmem))
  have hkey : remove_data_from_shard m did
      = ({ m with
            shards := aset m.shards mp.shard_index
              { sh with data_indices := sh.data_indices.erase mp.data_index,
                        num_samples := sh.num_samples - 1 },
            data_to_shard := aerase m.data_to_shard did,
            index_to_data_id :=
              if (alookup m.index_to_data_id mp.data_index).isSome then
                aerase m.index_to_data_id mp.data_index
              else m.index_to_data_id },
         some mp.shard_index) := by
    simp only [remove_data_from_shard, hmp, hsh, if_pos hmem]
  rw [hkey]
  refine ⟨rfl, ?_, ?_, ?_⟩
  · simp only [get_shard_for_data]
    rw [alookup_aerase_self m.data_to_shard did hdk]
    rfl
  · refine ⟨_, alookup_aset_self m.shards mp.shard_index _, ?_, ?_⟩
    · simp only
      omega
    · simp only [List.length_erase_of_mem hmem]
      omega
  · simp only [totalSamples]
    have := sum_map_aset_nat m.shards mp.shard_index sh
      { sh with data_indices := sh.data_indices.erase mp.data_index,
                num_samples := sh.num_samples - 1 }
      (fun s => s.num_samples) hsh
    simp only at this
    omega

/-- Concrete manager for the C3 witness: one shard holding indices 0 and 1
under ids a and b. -/
def c3mgr : ShardManager :=
  { num_shards := 1, random_seed := 0,
    shards := [(0, { shard_index := 0, num_samples := 2, data_indices := [0, 1] })],
    data_to_shard :=
      [("a", { data_id := "a", data_index := 0, shard_index := 0 }),
       ("b", { data_id := "b", data_index := 1, shard_index := 0 })],
    index_to_data_id := [(0, "a"), (1, "b")] }

/-- Witness for C3: removing id a from `c3mgr`. -/
theorem remove_data_consistency_witness :
    (alookup c3mgr.data_to_shard "a"
        = some { data_id := "a", data_index := 0, shard_index := 0 } ∧
     alookup c3mgr.shards 0
        = some { shard_index := 0, num_samples := 2, data_indices := [0, 1] } ∧
     (0 : Nat) ∈ [0, 1] ∧
     (2 : Nat) = [0, 1].length ∧
     (c3mgr.data_to_shard.map Prod.fst).Nodup) ∧
    ((remove_data_from_shard c3mgr "a").2 = some 0 ∧
     get_shard_for_data (remove_data_from_shard c3mgr "a").1 "a" = none ∧
     (∃ sh2, alookup (remove_data_from_shard c3mgr "a").1.shards 0 = some sh2 ∧
       sh2.num_samples + 1 = 2 ∧
       sh2.num_samples = sh2.data_indices.length) ∧
     totalSamples (remove_data_from_shard c3mgr "a").1 + 1 = totalSamples c3mgr) :=
  ⟨⟨by decide, by decide, by decide, by decide, by decide⟩,
   remove_data_consistency c3mgr "a"
     { data_id := "a", data_index := 0, shard_index := 0 }
     { shard_index := 0, num_samples := 2, data_indices := [0, 1] }
     (by decide) (by decide) (by decide) (by decide) (by decide)⟩

/-- C4: calling unlearn with an empty forget set raises ValueError while the
shuffled forget-set DataLoader is being constructed (RandomSampler rejects a
zero-length dataset), before any weight update — it does not complete as a
skipped no-op result — and the model comes back unchanged.  This holds for
every retain set, configuration and training loop. -/
theorem unlearn_empty_forget_raises {I M : Type} (model : M)
    (evalModel : M → I → List ℚ) (useFisher : Bool)
    (fisherOn : List (I × Nat) → List (String × List ℚ))
    (trainLoop : M → Option (List (String × List ℚ)) →
      List (I × Nat) → List (I × Nat) → M)
    (retain : List (I × Nat)) (threshold : ℚ) :
    unlearn model evalModel useFisher fisherOn trainLoop [] retain threshold
      = (model, Except.error PyErr.valueError) := rfl

/-- C5 counterexample: with an empty forget set, verification does not return
a `success = false` result — it raises the ValueError that `np.max` throws on
a zero-size confidence array, so the claim quantified over every forget set
fails. -/
theorem verify_unlearning_empty_raises :
    verify_unlearning (fun _ => [1/2, 1/2] : Unit → List ℚ) [] [((), 0)] (3/5)
      = Except.error PyErr.valueError := rfl

/-- C5 (amended): for every model, every non-empty forget and retain set and
every threshold, verification returns a result (it does not raise) whose
`success` is `true` exactly when the forget-set mean confidence is below the
threshold and the retain-set accuracy is above the 0.85 utility floor of the
call site. -/
theorem verify_unlearning_success_iff {I : Type} (model : I → List ℚ)
    (forget retain : List (I × Nat)) (threshold : ℚ)
    (hf : forget ≠ []) (hr : retain ≠ []) :
    ∃ v, verify_unlearning model forget retain threshold = Except.ok v ∧
      (v.success = true ↔
        (meanConfidence model forget < threshold ∧
         85 / 100 < accuracyOn model retain)) ∧
      v.forget_confidence = meanConfidence model forget ∧
      v.retain_accuracy = accuracyOn model retain := by
  cases forget with
  | nil => exact absurd rfl hf
  | cons f0 frest =>
    cases retain with
    | nil => exact absurd rfl hr
    | cons r0 rrest =>
      refine ⟨_, rfl, ?_, rfl, rfl⟩
      simp only [Bool.and_eq_true, decide_eq_true_eq, gt_iff_lt]

/-- Witness for C5: an overconfident constant model on one-sample sets with
threshold 3/5 — verification comes back `success = false` without raising. -/
theorem verify_unlearning_success_iff_witness :
    (([((), 0)] : List (Unit × Nat)) ≠ [] ∧
     ([((), 1)] : List (Unit × Nat)) ≠ []) ∧
    (∃ v, verify_unlearning (fun _ => [9/10, 1/10] : Unit → List ℚ)
        [((), 0)] [((), 1)] (3/5) = Except.ok v ∧
      (v.success = true ↔
        (meanConfidence (fun _ => [9/10, 1/10] : Unit → List ℚ) [((), 0)] < 3/5 ∧
         85 / 100 < accuracyOn (fun _ => [9/10, 1/10] : Unit → List ℚ) [((), 1)])) ∧
      v.forget_confidence
        = meanConfidence (fun _ => [9/10, 1/10] : Unit → List ℚ) [((), 0)] ∧
      v.retain_accuracy
        = accuracyOn (fun _ => [9/10, 1/10] : Unit → List ℚ) [((), 1)]) :=
  ⟨⟨by decide, by decide⟩,
   verify_unlearning_success_iff (fun _ => [9/10, 1/10]) [((), 0)] [((), 1)]
     (3/5) (by decide) (by decide)⟩

theorem zipWith_sq_getD (a : List ℚ) :
    ∀ (b : List ℚ), a.length = b.length → ∀ j : Nat,
      (a.zipWith (fun x y => x + y ^ 2) b).getD j 0
        = a.getD j 0 + (b.getD j 0) ^ 2 := by
  induction a with
  | nil =>
    intro b hb j
    have : b = [] := List.length_eq_zero.mp hb.symm
    subst this
    simp
  | cons x xs ih =>
    intro b hb j
    cases b with
    | nil => simp at hb
    | cons y ys =>
      simp only [List.length_cons, Nat.succ.injEq] at hb
      cases j with
      | zero => simp
      | succ n => simpa using ih ys hb n

/-- The Fisher accumulation fold: componentwise it adds the sum of squared
per-example gradient components to the accumulator. -/
theorem fisher_accum_getD {E : Type} (g : E → List ℚ) (sz : Nat)
    (hg : ∀ e, (g e).length = sz) :
    ∀ (exs : List E) (acc : List ℚ), acc.length = sz →
      (exs.foldl (fun a e => a.zipWith (fun x y => x + y ^ 2) (g e)) acc).length
          = sz ∧
      ∀ j, (exs.foldl (fun a e => a.zipWith (fun x y => x + y ^ 2) (g e)) acc).getD j 0
          = acc.getD j 0 + (exs.map (fun e => ((g e).getD j 0) ^ 2)).sum := by
  intro exs
  induction exs with
  | nil => intro acc hacc; exact ⟨hacc, by simp⟩
  | cons e exs ih =>
    intro acc hacc
    have hlen2 : (acc.zipWith (fun x y => x + y ^ 2) (g e)).length = sz := by
      simp [List.length_zipWith, hacc, hg e]
    obtain ⟨l1, l2⟩ := ih (acc.zipWith (fun x y => x + y ^ 2) (g e)) hlen2
    refine ⟨l1, ?_⟩
    intro j
    rw [List.foldl_cons, l2 j,
      zipWith_sq_getD acc (g e) (by rw [hacc, hg e]) j]
    simp only [List.map_cons, List.sum_cons]
    ring

theorem getD_map_div (l : List ℚ) (t : ℚ) :
    ∀ j : Nat, (l.map (fun v => v / t)).getD j 0 = l.getD j 0 / t := by
  induction l with
  | nil => intro j; simp
  | cons x xs ih =>
    intro j
    cases j with
    | zero => simp
    | succ n => simpa using ih n

/-- C6: the Fisher output has one entry per trainable named parameter, in
order; each entry is a same-sized non-negative vector whose every component
is the sum over the processed examples (in loader order, honoring the
num_samples cap) of the squared per-example gradient component, divided by
the number of samples processed — squaring per example, normalizing by the
processed count. -/
theorem fisher_compute_spec {E : Type} (shapes : List (String × Nat))
    (gradFn : E → String → List ℚ) (examples : List E) (cap : Option Nat)
    (hg : ∀ e p, p ∈ shapes → (gradFn e p.1).length = p.2)
    (hn : 0 < (fisherProcessed examples cap).length) :
    (fisher_compute shapes gradFn examples cap).length = shapes.length ∧
    ∀ i, i < shapes.length →
      ((fisher_compute shapes gradFn examples cap).getD i ("", [])).1
          = (shapes.getD i ("", 0)).1 ∧
      ((fisher_compute shapes gradFn examples cap).getD i ("", [])).2.length
          = (shapes.getD i ("", 0)).2 ∧
      (∀ v ∈ ((fisher_compute shapes gradFn examples cap).getD i ("", [])).2,
        0 ≤ v) ∧
      ∀ j, ((fisher_compute shapes gradFn examples cap).getD i ("", [])).2.getD j 0
          = ((fisherProcessed examples cap).map
               (fun e => ((gradFn e (shapes.getD i ("", 0)).1).getD j 0) ^ 2)).sum
              / ((fisherProcessed examples cap).length : ℚ) := by
  constructor
  · simp [fisher_compute]
  · intro i hi
    have hi2 : i < (fisher_compute shapes gradFn examples cap).length := by
      simpa [fisher_compute] using hi
    have hentry : (fisher_compute shapes gradFn examples cap).getD i ("", [])
        = ((shapes.getD i ("", 0)).1,
           ((fisherProcessed examples cap).foldl
              (fun acc e => acc.zipWith (fun a gcomp => a + gcomp ^ 2)
                (gradFn e (shapes.getD i ("", 0)).1))
              (List.replicate (shapes.getD i ("", 0)).2 (0 : ℚ))).map
             (fun v => v / ((fisherProcessed examples cap).length : ℚ))) := by
      rw [List.getD_eq_getElem _ _ hi2, List.getD_eq_getElem _ _ hi]
      simp only [fisher_compute, List.getElem_map]
    have hgl : ∀ e, (gradFn e (shapes.getD i ("", 0)).1).length
        = (shapes.getD i ("", 0)).2 := by
      intro e
      have hmem : shapes.getD i ("", 0) ∈ shapes := by
        rw [List.getD_eq_getElem _ _ hi]
        exact List.getElem_mem _
      exact hg e _ hmem
    obtain ⟨hflen, hfget⟩ :=
      fisher_accum_getD (fun e => gradFn e (shapes.getD i ("", 0)).1)
        (shapes.getD i ("", 0)).2 hgl (fisherProcessed examples cap)
        (List.replicate (shapes.getD i ("", 0)).2 (0 : ℚ))
        (List.length_replicate _ _)
    rw [hentry]
    refine ⟨rfl, ?_, ?_, ?_⟩
    · simpa using hflen
    · intro v hv
      rw [List.mem_map] at hv
      obtain ⟨w, hw, rfl⟩ := hv
      rw [List.mem_iff_getElem] at hw
      obtain ⟨jj, hjj, rfl⟩ := hw
      rw [← List.getD_eq_getElem _ 0 hjj, hfget jj, getD_replicate_zero]
      apply div_nonneg
      · simp only [zero_add]
        apply List.sum_nonneg
        intro q hq
        rw [List.mem_map] at hq
        obtain ⟨e, _, rfl⟩ := hq
        positivity
      · positivity
    · intro j
      rw [getD_map_div, hfget j, getD_replicate_zero, zero_add]

/-- Witness for C6: one two-component parameter, constant per-example
gradient [3, 5], two examples, no cap. -/
theorem fisher_compute_spec_witness :
    ((∀ (e : Unit) (p : String × Nat), p ∈ [("w", 2)] →
        ((fun (_ : Unit) (_ : String) => [(3 : ℚ), 5]) e p.1).length = p.2) ∧
     0 < (fisherProcessed [(), ()] (none : Option Nat)).length) ∧
    ((fisher_compute [("w", 2)] (fun _ _ => [(3 : ℚ), 5]) [(), ()] none).length
        = [("w", 2)].length ∧
     ∀ i, i < [("w", 2)].length →
       ((fisher_compute [("w", 2)] (fun _ _ => [(3 : ℚ), 5]) [(), ()] none).getD
           i ("", [])).1
           = ([("w", 2)].getD i ("", 0)).1 ∧
       ((fisher_compute [("w", 2)] (fun _ _ => [(3 : ℚ), 5]) [(), ()] none).getD
           i ("", [])).2.length
           = ([("w", 2)].getD i ("", 0)).2 ∧
       (∀ v ∈ ((fisher_compute [("w", 2)] (fun _ _ => [(3 : ℚ), 5]) [(), ()]
           none).getD i ("", [])).2, 0 ≤ v) ∧
       ∀ j, ((fisher_compute [("w", 2)] (fun _ _ => [(3 : ℚ), 5]) [(), ()]
             none).getD i ("", [])).2.getD j 0
           = ((fisherProcessed [(), ()] none).map
                (fun e => (((fun (_ : Unit) (_ : String) => [(3 : ℚ), 5]) e
                    ([("w", 2)].getD i ("", 0)).1).getD j 0) ^ 2)).sum
               / ((fisherProcessed [(), ()] (none : Option Nat)).length : ℚ)) :=
  ⟨⟨fun e p hp => by
      rcases List.mem_singleton.mp hp with rfl
      rfl,
    by decide⟩,
   fisher_compute_spec [("w", 2)] (fun _ _ => [(3 : ℚ), 5]) [(), ()] none
     (fun e p hp => by
       rcases List.mem_singleton.mp hp with rfl
       rfl)
     (by decide)⟩

/-- Witness for C10: two shards, batch 2, two classes. -/
theorem aggregateVote_counts_witness :
    (c10ps ≠ [] ∧ 0 < 2 ∧ 0 < 2 ∧ (∀ p ∈ c10ps, p.length = 2) ∧
      (∀ p ∈ c10ps, ∀ row ∈ p, row.length = 2)) ∧
    ((aggregateVote c10ps).length = 2 ∧
     (∀ row ∈ aggregateVote c10ps, row.length = 2) ∧
     (∀ b, b < 2 → ∀ c,
       ((aggregateVote c10ps).getD b []).getD c 0
         = (c10ps.countP (fun p => decide (argmaxIdx (p.getD b []) = c)) : ℚ)) ∧
     (∀ b, b < 2 → ((aggregateVote c10ps).getD b []).sum = c10ps.length)) :=
  ⟨⟨by decide, by decide, by decide, by decide, by decide⟩,
   aggregateVote_counts c10ps 2 2 (by decide) (by decide) (by decide)
     (by decide) (by decide)⟩

end Amnesia
